import Mathlib

/-!
Verification development for the AOAI field-mapping backend (single-file
Node/Express server).  The definitions below are a shallow embedding of the
backend's pure logic: JavaScript numbers are modelled with rationals for the
finite values plus explicit NaN and infinities, JavaScript strings as `String`,
arrays as `List`, and objects either as structures (when their shape is fixed)
or as association lists (for parsed JSON).  Fallible code returns `Option` or
`Except`.  Each definition names the backend function it embeds.
-/

/-- A JavaScript number as used by the backend: finite values are modelled as
rationals, NaN and the two infinities are explicit constructors. -/
inductive JsNum : Type
  | num (q : ℚ)
  | nan
  | posInf
  | negInf
  deriving DecidableEq, Repr

/-- JavaScript truthiness of a number: `0` and `NaN` are falsy. -/
def JsNum.falsy : JsNum → Bool
  | .num q => q == 0
  | .nan => true
  | .posInf => false
  | .negInf => false

/-- JavaScript `a || b` on numbers: returns `b` when `a` is falsy. -/
def jsOr (a b : JsNum) : JsNum :=
  if a.falsy then b else a

/-- JavaScript `isFinite`. -/
def JsNum.finite : JsNum → Bool
  | .num _ => true
  | _ => false

/-- JavaScript `a < b` on numbers (false whenever either side is NaN). -/
def jsLt : JsNum → JsNum → Bool
  | .nan, _ => false
  | _, .nan => false
  | .num p, .num q => p < q
  | .num _, .posInf => true
  | .num _, .negInf => false
  | .posInf, _ => false
  | .negInf, .negInf => false
  | .negInf, _ => true

/-- JavaScript `a <= b` on numbers (false whenever either side is NaN). -/
def jsLe : JsNum → JsNum → Bool
  | .nan, _ => false
  | _, .nan => false
  | .num p, .num q => p ≤ q
  | .num _, .posInf => true
  | .num _, .negInf => false
  | .posInf, .posInf => true
  | .posInf, _ => false
  | .negInf, _ => true

/-- JavaScript `Math.min` restricted to two arguments. -/
def jsMin : JsNum → JsNum → JsNum
  | .nan, _ => .nan
  | _, .nan => .nan
  | .negInf, _ => .negInf
  | _, .negInf => .negInf
  | .posInf, x => x
  | x, .posInf => x
  | .num p, .num q => .num (min p q)

/-- JavaScript `Math.max` restricted to two arguments. -/
def jsMax : JsNum → JsNum → JsNum
  | .nan, _ => .nan
  | _, .nan => .nan
  | .posInf, _ => .posInf
  | _, .posInf => .posInf
  | .negInf, x => x
  | x, .negInf => x
  | .num p, .num q => .num (max p q)

/-- The clamp inside `colorForScore` (part_000 line 149):
`x => Math.max(0, Math.min(1, x || 0))`. -/
def clampJs (x : JsNum) : JsNum :=
  jsMax (.num 0) (jsMin (.num 1) (jsOr x (.num 0)))

/-- Extract the rational value of a finite JavaScript number (`0` otherwise;
`clampJs` is proved below to always return a finite value, so the default
is never exercised by `colorForScore`). -/
def JsNum.toQ : JsNum → ℚ
  | .num q => q
  | _ => 0

/-- Value of one hexadecimal digit, as `parseInt(_, 16)` reads it.  The source
only applies it to the digits of the three fixed color stops. -/
def hexVal (c : Char) : ℕ :=
  if 48 ≤ c.toNat ∧ c.toNat ≤ 57 then c.toNat - 48
  else if 97 ≤ c.toNat ∧ c.toNat ≤ 102 then c.toNat - 87
  else if 65 ≤ c.toNat ∧ c.toNat ≤ 70 then c.toNat - 55
  else 0

/-- `h.replace('#','')` (part_000 line 151): JavaScript `replace` with a string
pattern removes only the first occurrence; the color stops carry a single
leading `#`. -/
def stripHash (h : String) : List Char :=
  match h.toList with
  | '#' :: rest => rest
  | l => l

/-- `hexToRgb` (part_000 line 151): read the three byte pairs of a `#rrggbb`
literal. -/
def hexToRgb (h : String) : ℕ × ℕ × ℕ :=
  match stripHash h with
  | [a, b, c, d, e, f] =>
      (16 * hexVal a + hexVal b, 16 * hexVal c + hexVal d, 16 * hexVal e + hexVal f)
  | _ => (0, 0, 0)

/-- `n.toString(16)` for a byte value: lowercase hexadecimal digits. -/
def natToHex (n : ℕ) : String :=
  String.mk (Nat.toDigits 16 n)

/-- `n.toString(16).padStart(2,'0')` (part_000 line 152). -/
def hexByte (n : ℕ) : String :=
  let s := natToHex n
  if s.length < 2 then "0" ++ s else s

/-- `rgbToHex` (part_000 line 152). -/
def rgbToHex (c : ℕ × ℕ × ℕ) : String :=
  "#" ++ hexByte c.1 ++ hexByte c.2.1 ++ hexByte c.2.2

/-- JavaScript `Math.round`: round half toward positive infinity, i.e.
`⌊x + 1/2⌋`. -/
def jsRound (q : ℚ) : ℤ :=
  ⌊q + 1 / 2⌋

/-- One component of `blend` (part_000 line 153): `Math.round(a + (b - a) * t)`.
For the arguments produced by `colorForScore` the result is a byte value, so
`Int.toNat` is exact. -/
def blendComp (a b : ℕ) (t : ℚ) : ℕ :=
  (jsRound ((a : ℚ) + ((b : ℚ) - (a : ℚ)) * t)).toNat

/-- `blend` (part_000 line 153). -/
def blend (a b : ℕ × ℕ × ℕ) (t : ℚ) : ℕ × ℕ × ℕ :=
  (blendComp a.1 b.1 t, blendComp a.2.1 b.2.1 t, blendComp a.2.2 b.2.2 t)

/-- The low stop of the gradient, `RED = hexToRgb('#F8696B')`. -/
def stopRED : ℕ × ℕ × ℕ := hexToRgb "#F8696B"

/-- The mid stop of the gradient, `YEL = hexToRgb('#FFEB84')`. -/
def stopYEL : ℕ × ℕ × ℕ := hexToRgb "#FFEB84"

/-- The high stop of the gradient, `GRN = hexToRgb('#63BE7B')`. -/
def stopGRN : ℕ × ℕ × ℕ := hexToRgb "#63BE7B"

/-- `colorForScore` (part_000 lines 148-157): clamp the input with
`Math.max(0, Math.min(1, v || 0))`, then interpolate RED→YEL below the 0.5
midpoint and YEL→GRN at or above it, and render the result as a `#rrggbb`
string. -/
def colorForScore (v : JsNum) : String :=
  let q := (clampJs v).toQ
  let rgb := if q ≤ 1 / 2 then blend stopRED stopYEL (q / (1 / 2))
             else blend stopYEL stopGRN ((q - 1 / 2) / (1 / 2))
  rgbToHex rgb

/-- Background color of a `MatchScore` cell in the spreadsheet renderer
(part_000 lines 171-177) for a numeric score: `bg = '#FFFFFF'`, then if the
value is finite, scores below 0.60 get the flat low-confidence color and the
rest get the gradient.  (In the pipeline the raw cell value is always a
JavaScript number, so the string-parsing arm of the source ternary at line 172
is not exercised.) -/
def excelScoreBg (v : JsNum) : String :=
  if v.finite then (if jsLt v (.num (3 / 5)) then "#FCE4E4" else colorForScore v)
  else "#FFFFFF"

/-- Background color of a `MatchScore` cell in the HTML renderer (part_000
lines 197-200): `low = isFinite(v) && v < 0.60`;
`bg = low ? '#FCE4E4' : (isFinite(v) ? colorForScore(v) : 'transparent')`. -/
def htmlScoreBg (v : JsNum) : String :=
  if v.finite && jsLt v (.num (3 / 5)) then "#FCE4E4"
  else if v.finite then colorForScore v else "transparent"

lemma jsRound_natCast (n : ℕ) : jsRound (n : ℚ) = n := by
  unfold jsRound
  rw [Int.floor_eq_iff]
  constructor <;> [skip; skip] <;> push_cast <;> linarith

lemma blendComp_zero (a b : ℕ) : blendComp a b 0 = a := by
  unfold blendComp
  rw [mul_zero, add_zero, jsRound_natCast, Int.toNat_natCast]

lemma blendComp_one (a b : ℕ) : blendComp a b 1 = b := by
  unfold blendComp
  rw [mul_one, add_sub_cancel, jsRound_natCast, Int.toNat_natCast]

lemma blend_zero (a b : ℕ × ℕ × ℕ) : blend a b 0 = a := by
  simp [blend, blendComp_zero]

lemma blend_one (a b : ℕ × ℕ × ℕ) : blend a b 1 = b := by
  simp [blend, blendComp_one]

lemma clampJs_num (q : ℚ) : clampJs (.num q) = .num (max 0 (min 1 q)) := by
  unfold clampJs jsOr
  rcases eq_or_ne q 0 with h | h
  · subst h; simp [JsNum.falsy, jsMin, jsMax]
  · simp [JsNum.falsy, h, jsMin, jsMax]

lemma clampJs_nan : clampJs .nan = .num 0 := by
  simp [clampJs, jsOr, JsNum.falsy, jsMin, jsMax]

lemma clampJs_negInf : clampJs .negInf = .num 0 := by
  simp [clampJs, jsOr, JsNum.falsy, jsMin, jsMax]

lemma clampJs_posInf : clampJs .posInf = .num 1 := by
  simp [clampJs, jsOr, JsNum.falsy, jsMin, jsMax]

lemma colorForScore_zero : colorForScore (.num 0) = rgbToHex stopRED := by
  unfold colorForScore
  rw [clampJs_num]
  norm_num [JsNum.toQ, blend_zero]

lemma colorForScore_half : colorForScore (.num (1 / 2)) = rgbToHex stopYEL := by
  unfold colorForScore
  rw [clampJs_num]
  norm_num [JsNum.toQ, blend_one]

lemma colorForScore_one : colorForScore (.num 1) = rgbToHex stopGRN := by
  unfold colorForScore
  rw [clampJs_num]
  norm_num [JsNum.toQ, blend_one]

lemma colorForScore_posInf : colorForScore .posInf = rgbToHex stopGRN := by
  unfold colorForScore
  rw [clampJs_posInf]
  norm_num [JsNum.toQ, blend_one]

lemma colorForScore_nan : colorForScore .nan = rgbToHex stopRED := by
  unfold colorForScore
  rw [clampJs_nan]
  norm_num [JsNum.toQ, blend_zero]

lemma colorForScore_negInf : colorForScore .negInf = rgbToHex stopRED := by
  unfold colorForScore
  rw [clampJs_negInf]
  norm_num [JsNum.toQ, blend_zero]

/-- A parsed JSON value, the possible results of `JSON.parse` in `aoaiMapBatch`
(part_000 line 138).  Objects are association lists in key order; a duplicate
key in the JSON text makes the later entry shadow the earlier one. -/
inductive JVal : Type
  | jnull
  | jbool (b : Bool)
  | jnum (q : ℚ)
  | jstr (s : String)
  | jarr (xs : List JVal)
  | jobj (fields : List (String × JVal))

/-- Property read `o[k]` on a parsed JSON object: the last entry for the key
wins (later duplicate JSON keys shadow earlier ones); `none` plays the role of
JavaScript `undefined`. -/
def objGet (fields : List (String × JVal)) (k : String) : Option JVal :=
  (fields.reverse.find? (fun p => p.1 == k)).map (fun p => p.2)

/-- JavaScript truthiness of a parsed JSON value. -/
def JVal.falsy : JVal → Bool
  | .jnull => true
  | .jbool b => !b
  | .jnum q => q == 0
  | .jstr s => s == ""
  | .jarr _ => false
  | .jobj _ => false

/-- The response-shape handling of `aoaiMapBatch` (part_000 line 144):
`const mappings = Array.isArray(obj) ? obj : (obj.mappings || []);` followed by
`mappings.map(...)`.  An array is used directly; otherwise the `mappings`
property is read (`undefined` for null-free non-objects), a falsy property
falls back to `[]`, a truthy non-array property makes the subsequent `.map`
throw a TypeError, and reading any property of `null` throws a TypeError. -/
def extractMappings : JVal → Except String (List JVal)
  | .jarr xs => .ok xs
  | .jnull => .error "TypeError: cannot read properties of null"
  | .jobj fields =>
      match objGet fields "mappings" with
      | none => .ok []
      | some v =>
          if v.falsy then .ok []
          else
            match v with
            | .jarr xs => .ok xs
            | _ => .error "TypeError: mappings.map is not a function"
  | _ => .ok []

/-- JavaScript `o || d` for an optional string: absent and empty strings are
falsy. -/
def jsStrD (o : Option String) (d : String) : String :=
  match o with
  | some s => if s = "" then d else s
  | none => d

/-- JavaScript `s || d` for a string: only the empty string is falsy. -/
def jsStrOr (s d : String) : String :=
  if s = "" then d else s

/-- One element `m` of the oracle's `mappings` array, at the granularity used
by the row conversion of `aoaiMapBatch` (part_000 line 145): the string-valued
properties as optional strings, and `scoreNum` holding the value of
`Number(m.score)` (JavaScript `Number` of a missing or non-numeric score is
NaN; `Number` of the JSON string `"Infinity"` is the positive infinity). -/
structure RawMapping where
  source : Option String
  target_path : Option String
  scoreNum : JsNum
  rationale : Option String

/-- A `FieldMapping` as produced by `aoaiMapBatch` (part_000 line 145). -/
structure Mapping where
  SourceField : String
  SuggestedTargetPath : String
  MatchScore : JsNum
  Rationale : String
  deriving DecidableEq, Repr

/-- The row conversion of `aoaiMapBatch` (part_000 line 145):
`{SourceField: m.source || '', SuggestedTargetPath: m.target_path || '',
MatchScore: Number(m.score) || 0, Rationale: m.rationale || ''}`. -/
def toFieldMapping (m : RawMapping) : Mapping :=
  { SourceField := jsStrD m.source ""
    SuggestedTargetPath := jsStrD m.target_path ""
    MatchScore := jsOr m.scoreNum (.num 0)
    Rationale := jsStrD m.rationale "" }

/-- `mappings.map(m => ...)` in `aoaiMapBatch` (part_000 line 145). -/
def aoaiMapRows (rows : List RawMapping) : List Mapping :=
  rows.map toFieldMapping

/-- A score value lies in the unit interval (it is a finite number between 0
and 1). -/
def scoreInUnit (s : JsNum) : Prop :=
  ∃ q : ℚ, s = .num q ∧ 0 ≤ q ∧ q ≤ 1

/-- A `TargetPathEntry` row emitted by `parseXsdPaths` (part_000 line 92). -/
structure TargetRow where
  schema : String
  path : String
  name : String
  type : String
  minOccurs : String
  maxOccurs : String
  deriving DecidableEq, Repr

/-- The deduplication key `r.schema + '|' + r.path` used at part_000 lines
98-99 and 244-245. -/
def rowKey (r : TargetRow) : String :=
  r.schema ++ "|" ++ r.path

/-- The `seen`-set filter of part_000 lines 98-99 and 244-245, with the set of
already-seen keys made explicit: keep a row when its key has not occurred
before. -/
def dedupAux (seen : List String) : List TargetRow → List TargetRow
  | [] => []
  | r :: t => if rowKey r ∈ seen then dedupAux seen t else r :: dedupAux (rowKey r :: seen) t

/-- First-occurrence-wins deduplication by `schema + '|' + path`
(part_000 lines 98-99 within one schema, lines 244-245 for the merged
dictionary). -/
def dedupByKey (rows : List TargetRow) : List TargetRow :=
  dedupAux [] rows

/-- A row of the assembled `bySource` table (part_000 lines 260-273). -/
structure AssembledRow where
  SourceOrder : ℕ
  SourceField : String
  SuggestedTargetPath : String
  TargetSchema : String
  TargetType : String
  Occurs : String
  MatchScore : JsNum
  SampleValue : String
  Rationale : String
  deriving DecidableEq, Repr

/-- `extraByPath.get(p)` where `extraByPath = new Map(targetDict.map(r =>
[r.path, r]))` (part_000 line 259): a JavaScript `Map` built from pairs keeps
the last pair for each key. -/
def mapGetByPath (dict : List TargetRow) (p : String) : Option TargetRow :=
  dict.reverse.find? (fun r => r.path == p)

/-- `extra.f || ''` where `extra` is the looked-up dictionary row or `{}`
(part_000 lines 261-268): a present string field passes through (`'' || ''`
is `''`), a missing object yields `''`. -/
def extraField (extra : Option TargetRow) (f : TargetRow → String) : String :=
  (extra.map f).getD ""

/-- One assembled row (the body of the `results.map` at part_000 lines
260-273), with `idx` the zero-based position in the results list. -/
def joinRow (dict : List TargetRow) (samples : String → List String) (idx : ℕ)
    (r : Mapping) : AssembledRow :=
  let extra := mapGetByPath dict r.SuggestedTargetPath
  { SourceOrder := idx + 1
    SourceField := r.SourceField
    SuggestedTargetPath := r.SuggestedTargetPath
    TargetSchema := extraField extra (fun e => e.schema)
    TargetType := extraField extra (fun e => e.type)
    Occurs := extraField extra (fun e => e.minOccurs) ++ ".." ++ extraField extra (fun e => e.maxOccurs)
    MatchScore := r.MatchScore
    SampleValue := jsStrOr ((samples r.SourceField).headD "") ""
    Rationale := jsStrOr r.Rationale "" }

/-- The backfill loop of the `/api/map` handler (part_000 lines 256-257):
every field of the original field list whose name is absent from the oracle
results is appended with empty path, score `0.0` and empty rationale.  The
`have` set is computed from the original results, so duplicate field-list
entries absent from the results each get their own backfill row, exactly as in
the source. -/
def backfill (fieldList : List String) (results : List Mapping) : List Mapping :=
  results ++ (fieldList.filter (fun c => !(results.any (fun r => r.SourceField == c)))).map
    (fun c => { SourceField := c, SuggestedTargetPath := "", MatchScore := .num 0, Rationale := "" })

/-- `bySource = results.map((r, idx) => ...)` (part_000 lines 260-273). -/
def assembleBySource (dict : List TargetRow) (samples : String → List String)
    (results : List Mapping) : List AssembledRow :=
  results.enum.map (fun p => joinRow dict samples p.1 p.2)

/-- The ordering key realised by the comparator
`(a,b) => (b.MatchScore||0) - (a.MatchScore||0)` (part_000 line 274): NaN is
first replaced by `0` via `|| 0`, the infinities compare as the extremes, and
a NaN difference (two equal infinities) is treated by the sort as a tie. -/
def scoreKey : JsNum → WithBot (WithTop ℚ)
  | .num q => ((q : WithTop ℚ) : WithBot (WithTop ℚ))
  | .nan => ((0 : WithTop ℚ) : WithBot (WithTop ℚ))
  | .posInf => ((⊤ : WithTop ℚ) : WithBot (WithTop ℚ))
  | .negInf => ⊥

/-- Stable insertion step for the descending sort: a later element is placed
before an earlier one only when its key is strictly greater, so equal keys
keep their original relative order, as ECMAScript requires `Array.prototype.sort`
to do. -/
def insertByScore (x : AssembledRow) : List AssembledRow → List AssembledRow
  | [] => [x]
  | h :: t =>
      if scoreKey h.MatchScore ≤ scoreKey x.MatchScore then x :: h :: t
      else h :: insertByScore x t

/-- `[...bySource].sort((a,b) => (b.MatchScore||0) - (a.MatchScore||0))`
(part_000 line 274), modelled as a stable descending insertion sort —
ECMAScript 2019 and later require `Array.prototype.sort` to be stable. -/
def sortByScoreDesc : List AssembledRow → List AssembledRow
  | [] => []
  | h :: t => insertByScore h (sortByScoreDesc t)

mutual
/-- A parsed `xs:element` node as `walk` (part_000 lines 81-96) reads it: the
optional `name`, `ref`, `type`, `minOccurs` and `maxOccurs` attributes and an
optional inline `xs:complexType` child. -/
inductive XElem : Type
  | mk (name : Option String) (ref : Option String) (typeAttr : Option String)
       (minOccurs : Option String) (maxOccurs : Option String) (inlineCT : Option XCType)

/-- A parsed `xs:complexType` node, carrying the element declarations found by
`childElements` (part_000 lines 68-80): the `xs:element` children of all
`xs:sequence`, `xs:choice` and `xs:all` groups, concatenated in that tag
order; the embedding stores the already-concatenated list. -/
inductive XCType : Type
  | mk (children : List XElem)
end

def XElem.name : XElem → Option String
  | .mk n _ _ _ _ _ => n

def XElem.ref : XElem → Option String
  | .mk _ r _ _ _ _ => r

def XElem.typeAttr : XElem → Option String
  | .mk _ _ t _ _ _ => t

def XElem.minOccurs : XElem → Option String
  | .mk _ _ _ mi _ _ => mi

def XElem.maxOccurs : XElem → Option String
  | .mk _ _ _ _ ma _ => ma

def XElem.inlineCT : XElem → Option XCType
  | .mk _ _ _ _ _ i => i

def XCType.children : XCType → List XElem
  | .mk cs => cs

/-- JavaScript truthiness of an optional attribute string: absent and empty
are falsy. -/
def jsStrOpt (o : Option String) : Option String :=
  match o with
  | some "" => none
  | x => x

/-- `String(s).split(':').pop()`: the part after the last colon. -/
def localName (s : String) : String :=
  (s.splitOn ":").getLastD s

/-- `const elName = el.name || (el.ref ? String(el.ref).split(':').pop() :
'(anon)');` (part_000 line 82), as a function of the `name` and `ref`
attributes. -/
def elName2 (n r : Option String) : String :=
  match jsStrOpt n with
  | some s => s
  | none =>
      match jsStrOpt r with
      | some s => localName s
      | none => "(anon)"

/-- `elName` of an element node (part_000 line 82). -/
def elName (el : XElem) : String :=
  elName2 el.name el.ref

/-- `const pathStr = prefix ? prefix + '/' + elName : elName;`
(part_000 line 83). -/
def mkPath (pre eln : String) : String :=
  if pre = "" then eln else pre ++ "/" ++ eln

/-- `const tname = el.type ? String(el.type).split(':').pop() : null;`
(part_000 line 86) as a function of the `type` attribute; a second truthiness
pass because both uses of `tname` (lines 88 and 92) guard it with
`tname && ...` / `tname || ...`. -/
def tn2 (ta : Option String) : Option String :=
  jsStrOpt ((jsStrOpt ta).map localName)

/-- `tname` of an element node (part_000 line 86). -/
def tnameOf (el : XElem) : Option String :=
  tn2 el.typeAttr

/-- The named complex-type table built at part_000 lines 63-65
(`if (ct.name) complexTypes[ct.name] = ct` — a later declaration with the same
name overwrites an earlier one, and unnamed declarations are skipped). -/
def mkCTTable (cts : List (Option String × XCType)) : List (String × XCType) :=
  cts.filterMap (fun p => (jsStrOpt p.1).map (fun n => (n, p.2)))

/-- `complexTypes[t]` lookup: the last declaration for a name wins. -/
def ctLookup (table : List (String × XCType)) (t : String) : Option XCType :=
  (table.reverse.find? (fun p => p.1 == t)).map (fun p => p.2)

/-- The named part of the complex-type resolution at part_000 lines 87-88:
`if (tname && complexTypes[tname]) ct = complexTypes[tname]`, as a function of
the `type` attribute. -/
def namedCT2 (table : List (String × XCType)) (ta : Option String) : Option XCType :=
  match tn2 ta with
  | some t => ctLookup table t
  | none => none

/-- The named complex-type resolution of an element node (part_000 lines
87-88). -/
def namedCT (table : List (String × XCType)) (el : XElem) : Option XCType :=
  namedCT2 table el.typeAttr

/-- The leaf row pushed at part_000 line 92, with `hasCt` recording whether a
complex type was resolved (`type: tname || (ct ? 'complexType' :
'simpleType')`). -/
def leafRow (nm pathStr eln : String) (tn : Option String) (hasCt : Bool)
    (mi ma : Option String) : TargetRow :=
  { schema := nm
    path := pathStr
    name := eln
    type :=
      match tn with
      | some t => t
      | none => if hasCt then "complexType" else "simpleType"
    minOccurs := mi.getD "1"
    maxOccurs := ma.getD "1" }

mutual
/-- The recursive `walk` of part_000 lines 81-96, totalised with a fuel
counter that is consumed only when the walk jumps through the named
complex-type table (the only non-structural recursion in the source; the
source itself has no such guard and loops forever on a cyclic table).
`none` means the fuel ran out.  The resolution order follows lines 87-89:
a type attribute that resolves in the table wins, otherwise the inline
complex type is used. -/
def walkT : ℕ → String → List (String × XCType) → XElem → String → Option (List TargetRow)
  | fuel, nm, table, .mk n r ta mi ma ict, pre =>
    match namedCT2 table ta with
    | some (.mk kids) =>
        walkNamed fuel nm table kids (mkPath pre (elName2 n r)) (elName2 n r) (tn2 ta) mi ma
    | none =>
        walkIct fuel nm table ict (mkPath pre (elName2 n r)) (elName2 n r) (tn2 ta) mi ma
  termination_by fuel _ _ el _ => (fuel, 1, sizeOf el)

/-- The walk after the complex type was resolved through the named table
(part_000 lines 88, 90-95): a childless type emits a leaf row; otherwise the
children are walked, which is the recursion the fuel pays for. -/
def walkNamed : ℕ → String → List (String × XCType) → List XElem → String → String →
    Option String → Option String → Option String → Option (List TargetRow)
  | _, nm, _, [], pathStr, eln, tn, mi, ma => some [leafRow nm pathStr eln tn true mi ma]
  | 0, _, _, _ :: _, _, _, _, _, _ => none
  | f + 1, nm, table, k :: ks, pathStr, _, _, _, _ => walkElems f nm table (k :: ks) pathStr
  termination_by fuel _ _ kids _ _ _ _ _ => (fuel, 0, sizeOf kids)

/-- The walk on the inline complex type (part_000 lines 89-95): no inline
type or a childless one emits a leaf row; otherwise the children are walked
structurally. -/
def walkIct : ℕ → String → List (String × XCType) → Option XCType → String → String →
    Option String → Option String → Option String → Option (List TargetRow)
  | _, nm, _, none, pathStr, eln, tn, mi, ma => some [leafRow nm pathStr eln tn false mi ma]
  | _, nm, _, some (.mk []), pathStr, eln, tn, mi, ma =>
      some [leafRow nm pathStr eln tn true mi ma]
  | fuel, nm, table, some (.mk (k :: ks)), pathStr, _, _, _, _ =>
      walkElems fuel nm table (k :: ks) pathStr
  termination_by fuel _ _ oct _ _ _ _ _ => (fuel, 1, sizeOf oct)

/-- `for (const kid of kids) walk(kid, pathStr)` — the children are walked in
order and their rows concatenated, exactly as the shared `rows` array
accumulates them. -/
def walkElems : ℕ → String → List (String × XCType) → List XElem → String → Option (List TargetRow)
  | _, _, _, [], _ => some []
  | fuel, nm, table, e :: es, pre => do
      let r ← walkT fuel nm table e pre
      let rs ← walkElems fuel nm table es pre
      pure (r ++ rs)
  termination_by fuel _ _ els _ => (fuel, 1, sizeOf els)
end

/-- `parseXsdPaths` after root detection (part_000 lines 58-100): walk every
root element with the empty prefix, concatenating the rows in declaration
order, then deduplicate by `schema + '|' + path`. -/
def flattenXsd (fuel : ℕ) (nm : String) (cts : List (Option String × XCType))
    (roots : List XElem) : Option (List TargetRow) :=
  (walkElems fuel nm (mkCTTable cts) roots "").map dedupByKey

mutual
/-- The named complex-type names referenced from an element as the walk
resolves it: the type attribute's target when it resolves in the table,
otherwise the references of the inline complex type the walk would descend
into. -/
def elemRefs (table : List (String × XCType)) : XElem → List String
  | .mk _ _ ta _ _ ict =>
      match tn2 ta with
      | some t => if (ctLookup table t).isSome then [t] else ictRefs table ict
      | none => ictRefs table ict

/-- The named complex-type names referenced from an optional inline complex
type. -/
def ictRefs (table : List (String × XCType)) : Option XCType → List String
  | some (.mk kids) => elemsRefs table kids
  | none => []

/-- The named complex-type names referenced from a list of elements. -/
def elemsRefs (table : List (String × XCType)) : List XElem → List String
  | [] => []
  | e :: es => elemRefs table e ++ elemsRefs table es
end

/-- The named complex-type names referenced from a complex type's children. -/
def ctRefs (table : List (String × XCType)) (c : XCType) : List String :=
  elemsRefs table c.children

/-- The named complex-type reference relation of the schema: `t` references
`t'` when the table resolves `t` to a complex type from whose body the walk
would jump to `t'`. -/
def refEdge (table : List (String × XCType)) (t t' : String) : Prop :=
  ∃ c, ctLookup table t = some c ∧ t' ∈ ctRefs table c

/-- A chain of named complex-type references starting at `t`: the list holds
the successively referenced type names. -/
def IsRefPathFrom (table : List (String × XCType)) : String → List String → Prop
  | _, [] => True
  | t, x :: xs => refEdge table t x ∧ IsRefPathFrom table x xs

/-- Every reference chain starting at `t` has fewer than `n` edges. -/
def reachBound (table : List (String × XCType)) (t : String) (n : ℕ) : Prop :=
  ∀ l, IsRefPathFrom table t l → l.length < n

/-- The named complex-type references contain no cycle, direct or
transitive. -/
def NoCycle (table : List (String × XCType)) : Prop :=
  ∀ t, ¬ Relation.TransGen (refEdge table) t t

/-- Claim C5 (amended): `colorForScore` is a deterministic pure function; a
finite input is clamped to `[0,1]`; the non-finite inputs NaN and negative
infinity are treated as 0, but positive infinity is clamped to 1 (not treated
as 0 as the claim states); `colorFor(0)` is the low-stop color `#F8696B`,
`colorFor(0.5)` is the mid-stop color `#FFEB84`, and `colorFor(1)` is the
high-stop color `#63BE7B` (each rendered through the same hex writer the
function uses). -/
theorem C5_theorem :
    (∀ q : ℚ, clampJs (.num q) = .num (max 0 (min 1 q)))
    ∧ clampJs .nan = .num 0
    ∧ clampJs .negInf = .num 0
    ∧ clampJs .posInf = .num 1
    ∧ colorForScore (.num 0) = rgbToHex stopRED
    ∧ colorForScore (.num (1 / 2)) = rgbToHex stopYEL
    ∧ colorForScore (.num 1) = rgbToHex stopGRN :=
  ⟨clampJs_num, clampJs_nan, clampJs_negInf, clampJs_posInf,
    colorForScore_zero, colorForScore_half, colorForScore_one⟩

/-- Claim C5 counterexample: positive infinity is a non-finite input, yet
`colorForScore` maps it to the color of 1 (the high stop), not to the color of
0 (the low stop), refuting "every non-finite input treated as 0". -/
theorem C5_counterexample :
    colorForScore .posInf = colorForScore (.num 1)
    ∧ colorForScore .posInf ≠ colorForScore (.num 0) := by
  refine ⟨by rw [colorForScore_posInf, colorForScore_one], ?_⟩
  rw [colorForScore_posInf, colorForScore_zero]
  decide

/-- Claim C6 (amended): for every finite score the spreadsheet renderer and
the HTML renderer compute the same cell background — the flat low-confidence
color below the 0.60 threshold and the gradient color at or above it — but
for a non-finite score the two renderers differ: the spreadsheet falls back
to `#FFFFFF` while the HTML document falls back to `transparent`. -/
theorem C6_theorem :
    (∀ q : ℚ,
      excelScoreBg (.num q) = htmlScoreBg (.num q)
      ∧ (q < 3 / 5 → excelScoreBg (.num q) = "#FCE4E4")
      ∧ (3 / 5 ≤ q → excelScoreBg (.num q) = colorForScore (.num q)))
    ∧ (∀ v : JsNum, v.finite = false →
        excelScoreBg v = "#FFFFFF" ∧ htmlScoreBg v = "transparent") := by
  constructor
  · intro q
    by_cases h : q < 3 / 5
    · simp [excelScoreBg, htmlScoreBg, JsNum.finite, jsLt, h]
    · simp [excelScoreBg, htmlScoreBg, JsNum.finite, jsLt, h]
  · intro v hv
    simp [excelScoreBg, htmlScoreBg, hv]

/-- Claim C6 witness: at the concrete scores 0.5 and 0.7 the two renderers
agree, with the low-confidence override below the threshold and the gradient
at or above it. -/
theorem C6_witness :
    excelScoreBg (.num (1 / 2)) = htmlScoreBg (.num (1 / 2))
    ∧ excelScoreBg (.num (1 / 2)) = "#FCE4E4"
    ∧ excelScoreBg (.num (7 / 10)) = colorForScore (.num (7 / 10)) :=
  ⟨(C6_theorem.1 (1 / 2)).1, (C6_theorem.1 (1 / 2)).2.1 (by norm_num),
    (C6_theorem.1 (7 / 10)).2.2 (by norm_num)⟩

/-- Claim C6 counterexample: at the score value positive infinity (reachable
as `Number("Infinity") || 0`) the two renderers disagree — the spreadsheet
paints `#FFFFFF`, the HTML document paints `transparent` — refuting "the
spreadsheet renderer and the document renderer compute the same cell
background color for every score value". -/
theorem C6_counterexample :
    excelScoreBg .posInf = "#FFFFFF"
    ∧ htmlScoreBg .posInf = "transparent"
    ∧ excelScoreBg .posInf ≠ htmlScoreBg .posInf := by
  refine ⟨rfl, rfl, ?_⟩
  intro h
  simp [excelScoreBg, htmlScoreBg, JsNum.finite] at h

/-- Claim C9: an assembled row whose suggested path has no exact match in the
target dictionary gets a blank schema, a blank type and an occurs column made
of two blanks around the `..` separator, and the join is a total function (no
error is raised). -/
theorem C9_theorem (dict : List TargetRow) (samples : String → List String)
    (results : List Mapping) :
    ∀ row ∈ assembleBySource dict samples results,
      (∀ d ∈ dict, d.path ≠ row.SuggestedTargetPath) →
      row.TargetSchema = "" ∧ row.TargetType = "" ∧ row.Occurs = ".." := by
  intro row hrow hnomatch
  obtain ⟨p, hp, rfl⟩ := List.mem_map.mp hrow
  have hpath : (joinRow dict samples p.1 p.2).SuggestedTargetPath = p.2.SuggestedTargetPath := rfl
  have hfind : mapGetByPath dict p.2.SuggestedTargetPath = none := by
    unfold mapGetByPath
    rw [List.find?_eq_none]
    intro d hd
    have : d.path ≠ p.2.SuggestedTargetPath :=
      hnomatch d (List.mem_reverse.mp hd)
    simpa using this
  simp [joinRow, hfind, extraField]

/-- Claim C9 witness: joining a concrete result row against an empty
dictionary yields blank schema, blank type and the `..` occurs column. -/
theorem C9_witness :
    (joinRow [] (fun _ => []) 0 ⟨"A", "p", .num 1, ""⟩).TargetSchema = ""
    ∧ (joinRow [] (fun _ => []) 0 ⟨"A", "p", .num 1, ""⟩).TargetType = ""
    ∧ (joinRow [] (fun _ => []) 0 ⟨"A", "p", .num 1, ""⟩).Occurs = ".." := by
  have h := C9_theorem [] (fun _ => []) [⟨"A", "p", .num 1, ""⟩]
    (joinRow [] (fun _ => []) 0 ⟨"A", "p", .num 1, ""⟩)
    (by simp [assembleBySource, List.enum]) (by simp)
  exact h

/-- Claim C7 (amended): a non-empty mapping list is extracted only from the
two documented shapes — a JSON array, or an object whose `mappings` property
is an array — but the claim's "any other shape is a hard failure" is false:
shapes other than the two accepted ones are not all errors (see the
counterexample); only `null` and an object with a truthy non-array `mappings`
property throw. -/
theorem C7_theorem (obj : JVal) (l : List JVal)
    (h : extractMappings obj = .ok l) (hne : l ≠ []) :
    obj = .jarr l ∨ ∃ fs, obj = .jobj fs ∧ objGet fs "mappings" = some (.jarr l) := by
  cases obj with
  | jarr xs =>
      left
      simp only [extractMappings, Except.ok.injEq] at h
      rw [h]
  | jnull => simp [extractMappings] at h
  | jbool b =>
      simp only [extractMappings, Except.ok.injEq] at h
      exact absurd h.symm hne
  | jnum q =>
      simp only [extractMappings, Except.ok.injEq] at h
      exact absurd h.symm hne
  | jstr s =>
      simp only [extractMappings, Except.ok.injEq] at h
      exact absurd h.symm hne
  | jobj fs =>
      right
      refine ⟨fs, rfl, ?_⟩
      simp only [extractMappings] at h
      cases hg : objGet fs "mappings" with
      | none =>
          rw [hg] at h
          simp at h
          exact absurd h hne
      | some v =>
          rw [hg] at h
          by_cases hf : v.falsy
          · simp [hf] at h
            exact absurd h hne
          · simp only [hf, Bool.false_eq_true, if_false] at h
            cases v with
            | jarr xs =>
                simp only [Except.ok.injEq] at h
                rw [h]
            | jnull => simp [JVal.falsy] at hf
            | jbool b => simp at h
            | jnum q => simp at h
            | jstr s => simp at h
            | jobj fs2 => simp at h

/-- Claim C7 witness: a JSON array response is accepted and used directly. -/
theorem C7_witness :
    JVal.jarr [JVal.jnull] = JVal.jarr [JVal.jnull]
    ∨ ∃ fs, JVal.jarr [JVal.jnull] = JVal.jobj fs
        ∧ objGet fs "mappings" = some (.jarr [JVal.jnull]) :=
  C7_theorem (JVal.jarr [JVal.jnull]) [JVal.jnull] rfl (by simp)

/-- Claim C7 counterexample: a parsed object with no `mappings` property, a
plain JSON number, and a JSON string are none of the two documented shapes,
yet each is silently interpreted as the empty mapping list instead of being a
hard failure. -/
theorem C7_counterexample :
    extractMappings (.jobj []) = .ok []
    ∧ extractMappings (.jnum 42) = .ok []
    ∧ extractMappings (.jstr "oops") = .ok [] :=
  ⟨rfl, rfl, rfl⟩

/-- Claim C1 (amended): `MatchScore` is `Number(m.score) || 0`, so a missing
or non-numeric score (whose `Number` coercion is NaN) becomes 0, and whenever
every coerced score is NaN or a finite number in `[0,1]`, every row of the
assembled `bySource` list has a score in `[0,1]`; but the code performs no
clamping, so a numeric score outside `[0,1]` (or an infinite one) passes
through unchanged (see the counterexample). -/
theorem C1_theorem (fieldList : List String) (dict : List TargetRow)
    (samples : String → List String) (rows : List RawMapping)
    (h : ∀ m ∈ rows, m.scoreNum = .nan ∨ ∃ q : ℚ, m.scoreNum = .num q ∧ 0 ≤ q ∧ q ≤ 1) :
    ∀ row ∈ assembleBySource dict samples (backfill fieldList (aoaiMapRows rows)),
      scoreInUnit row.MatchScore := by
  intro row hrow
  obtain ⟨p, hp, rfl⟩ := List.mem_map.mp hrow
  have hp2 : p.2 ∈ backfill fieldList (aoaiMapRows rows) := by
    have : p.2 ∈ (backfill fieldList (aoaiMapRows rows)).enum.map Prod.snd :=
      List.mem_map_of_mem Prod.snd hp
    simpa [List.enum_map_snd] using this
  have hms : (joinRow dict samples p.1 p.2).MatchScore = p.2.MatchScore := rfl
  rw [hms]
  rcases List.mem_append.mp hp2 with hm | hm
  · obtain ⟨m, hmr, heq⟩ := List.mem_map.mp hm
    rw [← heq]
    rcases h m hmr with hnan | ⟨q, hq, h0, h1⟩
    · refine ⟨0, ?_, le_refl 0, by norm_num⟩
      simp [toFieldMapping, hnan, jsOr, JsNum.falsy]
    · rcases eq_or_ne q 0 with h0' | h0'
      · refine ⟨0, ?_, le_refl 0, by norm_num⟩
        simp [toFieldMapping, hq, h0', jsOr, JsNum.falsy]
      · refine ⟨q, ?_, h0, h1⟩
        simp [toFieldMapping, hq, jsOr, JsNum.falsy, h0']
  · obtain ⟨c, _, heq⟩ := List.mem_map.mp hm
    rw [← heq]
    exact ⟨0, rfl, le_refl 0, by norm_num⟩

/-- Claim C1 witness: with a well-behaved oracle response whose score is 1,
the assembled score is in the unit interval. -/
theorem C1_witness :
    scoreInUnit ((joinRow [] (fun _ => []) 0
      (toFieldMapping ⟨some "A", some "p", .num 1, none⟩)).MatchScore) := by
  have h := C1_theorem ["A"] [] (fun _ => []) [⟨some "A", some "p", .num 1, none⟩]
    (by
      intro m hm
      simp only [List.mem_singleton] at hm
      subst hm
      exact Or.inr ⟨1, rfl, by norm_num, by norm_num⟩)
    (joinRow [] (fun _ => []) 0 (toFieldMapping ⟨some "A", some "p", .num 1, none⟩))
    (by decide)
  exact h

/-- Claim C1 counterexample: an oracle row with the numeric score 2 flows
through `Number(m.score) || 0` and the whole assembly unchanged — the
assembled `bySource` row carries `MatchScore = 2`, which is not in `[0,1]`,
refuting "every FieldMapping produced by the assembly pipeline has a
matchScore in [0,1]". -/
theorem C1_counterexample :
    ((assembleBySource [] (fun _ => [])
        (backfill ["A"] (aoaiMapRows [⟨some "A", some "p", .num 2, none⟩]))).map
      (fun r => r.MatchScore)) = [.num 2]
    ∧ ¬ scoreInUnit (.num 2) := by
  constructor
  · decide
  · rintro ⟨q, hq, h0, h1⟩
    rw [JsNum.num.injEq] at hq
    rw [← hq] at h1
    norm_num at h1

lemma insertByScore_perm (x : AssembledRow) (l : List AssembledRow) :
    (insertByScore x l).Perm (x :: l) := by
  induction l with
  | nil => simp [insertByScore]
  | cons h t ih =>
      by_cases hc : scoreKey h.MatchScore ≤ scoreKey x.MatchScore
      · rw [insertByScore, if_pos hc]
      · rw [insertByScore, if_neg hc]
        exact (ih.cons h).trans (List.Perm.swap x h t)

lemma insertByScore_pairwise (x : AssembledRow) (l : List AssembledRow)
    (hl : l.Pairwise (fun a b => scoreKey b.MatchScore ≤ scoreKey a.MatchScore)) :
    (insertByScore x l).Pairwise (fun a b => scoreKey b.MatchScore ≤ scoreKey a.MatchScore) := by
  induction l with
  | nil => simp [insertByScore]
  | cons h t ih =>
      rcases List.pairwise_cons.mp hl with ⟨hh, ht⟩
      by_cases hc : scoreKey h.MatchScore ≤ scoreKey x.MatchScore
      · rw [insertByScore, if_pos hc]
        refine List.pairwise_cons.mpr ⟨?_, hl⟩
        intro y hy
        rcases List.mem_cons.mp hy with rfl | hy'
        · exact hc
        · exact le_trans (hh y hy') hc
      · rw [insertByScore, if_neg hc]
        refine List.pairwise_cons.mpr ⟨?_, ih ht⟩
        intro y hy
        rcases List.mem_cons.mp ((insertByScore_perm x t).mem_iff.mp hy) with rfl | hy'
        · exact (not_le.mp hc).le
        · exact hh y hy'

lemma insertByScore_filter (x : AssembledRow) (l : List AssembledRow)
    (k : WithBot (WithTop ℚ)) :
    (insertByScore x l).filter (fun r => decide (scoreKey r.MatchScore = k))
      = if scoreKey x.MatchScore = k
        then x :: l.filter (fun r => decide (scoreKey r.MatchScore = k))
        else l.filter (fun r => decide (scoreKey r.MatchScore = k)) := by
  induction l with
  | nil =>
      by_cases hx : scoreKey x.MatchScore = k <;> simp [insertByScore, hx]
  | cons h t ih =>
      by_cases hc : scoreKey h.MatchScore ≤ scoreKey x.MatchScore
      · rw [insertByScore, if_pos hc]
        by_cases hx : scoreKey x.MatchScore = k <;> simp [List.filter_cons, hx]
      · rw [insertByScore, if_neg hc]
        by_cases hh : scoreKey h.MatchScore = k
        · have hxk : scoreKey x.MatchScore ≠ k := by
            intro he
            rw [← hh] at he
            exact absurd he.symm.le hc
          simp [List.filter_cons, hh, hxk, ih]
        · by_cases hx : scoreKey x.MatchScore = k <;> simp [List.filter_cons, hh, hx, ih]

lemma sortByScoreDesc_perm (l : List AssembledRow) : (sortByScoreDesc l).Perm l := by
  induction l with
  | nil => rfl
  | cons h t ih => exact (insertByScore_perm h (sortByScoreDesc t)).trans (ih.cons h)

lemma sortByScoreDesc_pairwise (l : List AssembledRow) :
    (sortByScoreDesc l).Pairwise (fun a b => scoreKey b.MatchScore ≤ scoreKey a.MatchScore) := by
  induction l with
  | nil => simp [sortByScoreDesc]
  | cons h t ih => exact insertByScore_pairwise h _ ih

lemma sortByScoreDesc_filter (l : List AssembledRow) (k : WithBot (WithTop ℚ)) :
    (sortByScoreDesc l).filter (fun r => decide (scoreKey r.MatchScore = k))
      = l.filter (fun r => decide (scoreKey r.MatchScore = k)) := by
  induction l with
  | nil => rfl
  | cons h t ih =>
      rw [sortByScoreDesc, insertByScore_filter, ih]
      by_cases hh : scoreKey h.MatchScore = k <;> simp [List.filter_cons, hh]

/-- Claim C3: `byScore` is a permutation of `bySource` sorted descending by
score under the comparator's ordering (`|| 0` maps NaN to 0 and the
infinities are the extremes): for all positions `i < j` the score key at `i`
is at least the score key at `j`, and the sort is stable — for every score
key, filtering `byScore` down to that key yields exactly the corresponding
rows of `bySource` in their original order. -/
theorem C3_theorem (l : List AssembledRow) :
    (sortByScoreDesc l).Perm l
    ∧ (∀ i j : Fin (sortByScoreDesc l).length, i < j →
        scoreKey ((sortByScoreDesc l).get j).MatchScore
          ≤ scoreKey ((sortByScoreDesc l).get i).MatchScore)
    ∧ (∀ k, (sortByScoreDesc l).filter (fun r => decide (scoreKey r.MatchScore = k))
          = l.filter (fun r => decide (scoreKey r.MatchScore = k))) := by
  refine ⟨sortByScoreDesc_perm l, ?_, sortByScoreDesc_filter l⟩
  intro i j hij
  exact List.pairwise_iff_get.mp (sortByScoreDesc_pairwise l) i j hij

/-- Claim C3 witness: sorting a concrete two-row list with scores 1 and 2
puts the score-2 row first and the score keys at the two positions are in
descending order. -/
theorem C3_witness :
    scoreKey ((sortByScoreDesc
        [⟨1, "A", "", "", "", "..", .num 1, "", ""⟩,
         ⟨2, "B", "", "", "", "..", .num 2, "", ""⟩]).get
          ⟨1, by decide⟩).MatchScore
      ≤ scoreKey ((sortByScoreDesc
        [⟨1, "A", "", "", "", "..", .num 1, "", ""⟩,
         ⟨2, "B", "", "", "", "..", .num 2, "", ""⟩]).get
          ⟨0, by decide⟩).MatchScore :=
  (C3_theorem _).2.1 ⟨0, by decide⟩ ⟨1, by decide⟩ (by decide)

lemma dedupAux_sublist (rows : List TargetRow) :
    ∀ seen, (dedupAux seen rows).Sublist rows := by
  induction rows with
  | nil => intro seen; simp [dedupAux]
  | cons r t ih =>
      intro seen
      rw [dedupAux]
      by_cases hc : rowKey r ∈ seen
      · rw [if_pos hc]
        exact (ih seen).cons r
      · rw [if_neg hc]
        exact (ih _).cons₂ r

lemma dedupAux_filter (k : String) (rows : List TargetRow) :
    ∀ seen, (dedupAux seen rows).filter (fun r => rowKey r == k)
      = if k ∈ seen then [] else (rows.filter (fun r => rowKey r == k)).take 1 := by
  induction rows with
  | nil =>
      intro seen
      by_cases h : k ∈ seen <;> simp [dedupAux, h]
  | cons r t ih =>
      intro seen
      by_cases hrk : rowKey r = k
      · subst hrk
        by_cases hr : rowKey r ∈ seen
        · simp [dedupAux, hr, ih]
        · simp [dedupAux, hr, ih, List.filter_cons]
      · have hks : k ≠ rowKey r := fun h => hrk h.symm
        by_cases hr : rowKey r ∈ seen
        · simp [dedupAux, hr, ih, List.filter_cons, hrk]
        · simp [dedupAux, hr, ih, List.filter_cons, hrk, hks]

lemma dedupByKey_filter (rows : List TargetRow) (k : String) :
    (dedupByKey rows).filter (fun r => rowKey r == k)
      = (rows.filter (fun r => rowKey r == k)).take 1 := by
  rw [dedupByKey, dedupAux_filter]
  simp

lemma dedupAux_nodup (rows : List TargetRow) :
    ∀ seen, ((dedupAux seen rows).map rowKey).Nodup
      ∧ ∀ r ∈ dedupAux seen rows, rowKey r ∉ seen := by
  induction rows with
  | nil => intro seen; simp [dedupAux]
  | cons r t ih =>
      intro seen
      rw [dedupAux]
      by_cases hr : rowKey r ∈ seen
      · rw [if_pos hr]
        exact ih seen
      · rw [if_neg hr]
        obtain ⟨hnd, hmem⟩ := ih (rowKey r :: seen)
        refine ⟨?_, ?_⟩
        · rw [List.map_cons, List.nodup_cons]
          refine ⟨?_, hnd⟩
          intro hk
          obtain ⟨r2, hr2, he⟩ := List.mem_map.mp hk
          exact (hmem r2 hr2) (he ▸ List.mem_cons_self _ _)
        · intro x hx
          rcases List.mem_cons.mp hx with rfl | hx'
          · exact hr
          · intro hxs
            exact (hmem x hx') (List.mem_cons_of_mem _ hxs)

lemma dedupByKey_keys_nodup (rows : List TargetRow) :
    ((dedupByKey rows).map rowKey).Nodup :=
  (dedupAux_nodup rows []).1

lemma dedupByKey_pairs_nodup (rows : List TargetRow) :
    ((dedupByKey rows).map (fun r => (r.schema, r.path))).Nodup := by
  have h : (dedupByKey rows).map rowKey
      = ((dedupByKey rows).map (fun r => (r.schema, r.path))).map
          (fun pr => pr.1 ++ "|" ++ pr.2) := by
    rw [List.map_map]
    rfl
  have := dedupByKey_keys_nodup rows
  rw [h] at this
  exact this.of_map _

lemma append_pipe_inj :
    ∀ (l1 l2 m1 m2 : List Char), '|' ∉ l1 → '|' ∉ l2 →
      l1 ++ '|' :: m1 = l2 ++ '|' :: m2 → l1 = l2 ∧ m1 = m2 := by
  intro l1
  induction l1 with
  | nil =>
      intro l2 m1 m2 h1 h2 h
      cases l2 with
      | nil =>
          simp at h
          exact ⟨rfl, h⟩
      | cons c l2' =>
          simp at h
          exact absurd (h.1 ▸ List.mem_cons_self c l2') h2
  | cons c l1' ih =>
      intro l2 m1 m2 h1 h2 h
      cases l2 with
      | nil =>
          simp at h
          exact absurd (h.1 ▸ List.mem_cons_self c l1') h1
      | cons d l2' =>
          simp only [List.cons_append, List.cons.injEq] at h
          obtain ⟨rfl, h'⟩ := h
          have h1' : '|' ∉ l1' := fun hm => h1 (List.mem_cons_of_mem _ hm)
          have h2' : '|' ∉ l2' := fun hm => h2 (List.mem_cons_of_mem _ hm)
          obtain ⟨he, hm⟩ := ih l2' m1 m2 h1' h2' h'
          exact ⟨by rw [he], hm⟩

lemma pipe_key_inj {s1 p1 s2 p2 : String} (h1 : '|' ∉ s1.data) (h2 : '|' ∉ s2.data)
    (h : s1 ++ "|" ++ p1 = s2 ++ "|" ++ p2) : s1 = s2 ∧ p1 = p2 := by
  have hd : s1.data ++ '|' :: p1.data = s2.data ++ '|' :: p2.data := by
    have := congrArg String.data h
    simpa [String.data_append] using this
  obtain ⟨hs, hp⟩ := append_pipe_inj s1.data s2.data p1.data p2.data h1 h2 hd
  exact ⟨String.ext hs, String.ext hp⟩

lemma dedupByKey_filter_pair (rows : List TargetRow) (s p : String)
    (hrows : ∀ r ∈ rows, '|' ∉ r.schema.data) (hs : '|' ∉ s.data) :
    (dedupByKey rows).filter (fun r => r.schema == s && r.path == p)
      = (rows.filter (fun r => r.schema == s && r.path == p)).take 1 := by
  have hpred : ∀ r ∈ rows,
      (r.schema == s && r.path == p) = (rowKey r == s ++ "|" ++ p) := by
    intro r hr
    by_cases h : r.schema = s ∧ r.path = p
    · simp [h.1, h.2, rowKey]
    · have hk : rowKey r ≠ s ++ "|" ++ p := by
        intro he
        exact h (pipe_key_inj (hrows r hr) hs he)
      have hb : (rowKey r == s ++ "|" ++ p) = false := beq_eq_false_iff_ne.mpr hk
      rcases not_and_or.mp h with h1 | h1
      · have hbs : (r.schema == s) = false := beq_eq_false_iff_ne.mpr h1
        rw [hb, hbs, Bool.false_and]
      · have hbp : (r.path == p) = false := beq_eq_false_iff_ne.mpr h1
        rw [hb, hbp, Bool.and_false]
  have hsub : ∀ r ∈ dedupByKey rows,
      (r.schema == s && r.path == p) = (rowKey r == s ++ "|" ++ p) :=
    fun r hr => hpred r ((dedupAux_sublist rows []).subset hr)
  rw [List.filter_congr hsub, List.filter_congr hpred, dedupByKey_filter]

/-- Claim C4 (amended): the deduplication key is the concatenated string
`schema + '|' + path`, not the pair `(schema, path)`.  The output never has
two entries with the same `(schema, path)`, it is a sublist of the input (so
surviving entries preserve discovery order), and for every concatenated key
the survivor is exactly the first input entry with that key; when no schema
name contains the `'|'` character the key is injective in the pair, so the
dedup is exactly first-occurrence-wins by `(schema, path)`; but with a `'|'`
in a schema name two entries with distinct `(schema, path)` pairs can collide
and the later one is silently dropped (see the counterexample). -/
theorem C4_theorem (rows : List TargetRow) :
    ((dedupByKey rows).map (fun r => (r.schema, r.path))).Nodup
    ∧ (dedupByKey rows).Sublist rows
    ∧ (∀ k, (dedupByKey rows).filter (fun r => rowKey r == k)
          = (rows.filter (fun r => rowKey r == k)).take 1)
    ∧ (∀ s p, (∀ r ∈ rows, '|' ∉ r.schema.data) → '|' ∉ s.data →
        (dedupByKey rows).filter (fun r => r.schema == s && r.path == p)
          = (rows.filter (fun r => r.schema == s && r.path == p)).take 1) :=
  ⟨dedupByKey_pairs_nodup rows, dedupAux_sublist rows [], dedupByKey_filter rows,
    fun s p h1 h2 => dedupByKey_filter_pair rows s p h1 h2⟩

/-- Claim C4 witness: on a concrete two-row dictionary with pipe-free schema
names and duplicate `(schema, path)`, only the first occurrence survives. -/
theorem C4_witness :
    (dedupByKey [⟨"s", "p", "n", "t", "1", "1"⟩, ⟨"s", "p", "n2", "t2", "0", "1"⟩]).filter
        (fun r => r.schema == "s" && r.path == "p")
      = ([(⟨"s", "p", "n", "t", "1", "1"⟩ : TargetRow), ⟨"s", "p", "n2", "t2", "0", "1"⟩].filter
          (fun r => r.schema == "s" && r.path == "p")).take 1 :=
  (C4_theorem _).2.2.2 "s" "p" (by decide) (by decide)

/-- Claim C4 counterexample: the entries `(schema "a|b", path "c")` and
`(schema "a", path "b|c")` have distinct `(schema, path)` pairs but the same
concatenated key `"a|b|c"`, so the second is silently dropped — refuting the
claim that only `(schema, path)` duplicates are dropped. -/
theorem C4_counterexample :
    dedupByKey [⟨"a|b", "c", "", "", "", ""⟩, ⟨"a", "b|c", "", "", "", ""⟩]
      = [⟨"a|b", "c", "", "", "", ""⟩]
    ∧ (⟨"a", "b|c", "", "", "", ""⟩ : TargetRow)
        ∉ dedupByKey [⟨"a|b", "c", "", "", "", ""⟩, ⟨"a", "b|c", "", "", "", ""⟩]
    ∧ ("a|b", "c") ≠ ("a", "b|c") := by
  refine ⟨by decide, by decide, by decide⟩

lemma assembleBySource_map_sourceField (dict : List TargetRow)
    (samples : String → List String) (results : List Mapping) :
    (assembleBySource dict samples results).map (fun r => r.SourceField)
      = results.map (fun r => r.SourceField) := by
  unfold assembleBySource
  rw [List.map_map]
  have h1 : results.enum.map
        ((fun r => r.SourceField) ∘ fun p => joinRow dict samples p.1 p.2)
      = (results.enum.map Prod.snd).map (fun r => r.SourceField) := by
    rw [List.map_map]
    rfl
  rw [h1, List.enum_map_snd]

lemma assembleBySource_length (dict : List TargetRow)
    (samples : String → List String) (results : List Mapping) :
    (assembleBySource dict samples results).length = results.length := by
  simp [assembleBySource]

lemma backfill_id_of_cover (fieldList : List String) (results : List Mapping)
    (h : results.map (fun r => r.SourceField) = fieldList) :
    backfill fieldList results = results := by
  unfold backfill
  have hnil : fieldList.filter (fun c => !(results.any (fun r => r.SourceField == c))) = [] := by
    rw [List.filter_eq_nil_iff]
    intro c hc
    rw [← h] at hc
    obtain ⟨r, hr, he⟩ := List.mem_map.mp hc
    simp only [Bool.not_eq_true', Bool.not_eq_false]
    rw [List.any_eq_true]
    exact ⟨r, hr, by simp [he]⟩
  rw [hnil]
  simp

lemma assembleBySource_mem_of_mem (dict : List TargetRow)
    (samples : String → List String) (results : List Mapping) (m : Mapping)
    (hm : m ∈ results) :
    ∃ row ∈ assembleBySource dict samples results,
      row.SourceField = m.SourceField
      ∧ row.SuggestedTargetPath = m.SuggestedTargetPath
      ∧ row.MatchScore = m.MatchScore := by
  have hm' : m ∈ results.enum.map Prod.snd := by
    rw [List.enum_map_snd]
    exact hm
  obtain ⟨p, hp, he⟩ := List.mem_map.mp hm'
  exact ⟨joinRow dict samples p.1 p.2, List.mem_map_of_mem _ hp,
    by rw [← he]; rfl, by rw [← he]; rfl, by rw [← he]; rfl⟩

/-- Claim C2 (amended): every field of the field list absent from the oracle
results is backfilled into the assembled `bySource` with empty path and score
0, and `SourceOrder` is always the 1-based position in the assembled list;
but the row count, the row order and the agreement of `SourceOrder` with the
field-list position hold only when the concatenated oracle results name
exactly the original field list in order (one row per field): an oracle that
returns duplicate, extra or reordered `source` names breaks them (see the
counterexample), since results are assembled in oracle-response order with
backfills appended. -/
theorem C2_theorem (dict : List TargetRow) (samples : String → List String) :
    (∀ fieldList results c, c ∈ fieldList → (∀ r ∈ results, r.SourceField ≠ c) →
      ∃ row ∈ assembleBySource dict samples (backfill fieldList results),
        row.SourceField = c ∧ row.SuggestedTargetPath = "" ∧ row.MatchScore = .num 0)
    ∧ (∀ fieldList results, results.map (fun r => r.SourceField) = fieldList →
        (assembleBySource dict samples (backfill fieldList results)).map
            (fun r => r.SourceField) = fieldList
        ∧ (assembleBySource dict samples (backfill fieldList results)).length
            = fieldList.length)
    ∧ (∀ results i (hi : i < (assembleBySource dict samples results).length),
        ((assembleBySource dict samples results).get ⟨i, hi⟩).SourceOrder = i + 1) := by
  refine ⟨?_, ?_, ?_⟩
  · intro fieldList results c hc habs
    have hmem : (⟨c, "", .num 0, ""⟩ : Mapping) ∈ backfill fieldList results := by
      unfold backfill
      apply List.mem_append_right
      apply List.mem_map_of_mem
      rw [List.mem_filter]
      refine ⟨hc, ?_⟩
      simp only [Bool.not_eq_true', List.any_eq_false]
      intro r hr
      simpa using habs r hr
    obtain ⟨row, hrow, h1, h2, h3⟩ :=
      assembleBySource_mem_of_mem dict samples _ _ hmem
    exact ⟨row, hrow, h1, h2, h3⟩
  · intro fieldList results h
    rw [backfill_id_of_cover fieldList results h]
    exact ⟨by rw [assembleBySource_map_sourceField, h],
      by rw [assembleBySource_length, ← h, List.length_map]⟩
  · intro results i hi
    simp only [assembleBySource, List.get_eq_getElem, List.getElem_map, List.getElem_enum]
    rfl

/-- Claim C2 witness: with field list `["A","B"]` and an oracle result naming
only `"A"`, the assembled output contains a backfilled `"B"` row with empty
path and score 0. -/
theorem C2_witness :
    ∃ row ∈ assembleBySource [] (fun _ => [])
        (backfill ["A", "B"] [⟨"A", "p", .num 1, ""⟩]),
      row.SourceField = "B" ∧ row.SuggestedTargetPath = "" ∧ row.MatchScore = .num 0 :=
  (C2_theorem [] (fun _ => [])).1 ["A", "B"] [⟨"A", "p", .num 1, ""⟩] "B"
    (by decide) (by decide)

/-- Claim C2 counterexample: an oracle that returns two rows for the same
field makes `|bySource|` (2) differ from the field-list length (1), and an
oracle that returns the fields in reversed order makes the assembled row
order `["B","A"]` differ from the field-list order `["A","B"]` — refuting
the claim for arbitrary oracle results. -/
theorem C2_counterexample :
    (assembleBySource [] (fun _ => [])
        (backfill ["A"] [⟨"A", "", .num 1, ""⟩, ⟨"A", "", .num 1, ""⟩])).length = 2
    ∧ (2 : ℕ) ≠ ["A"].length
    ∧ (assembleBySource [] (fun _ => [])
        (backfill ["A", "B"] [⟨"B", "", .num 1, ""⟩, ⟨"A", "", .num 1, ""⟩])).map
          (fun r => r.SourceField) = ["B", "A"]
    ∧ (["B", "A"] : List String) ≠ ["A", "B"] := by
  refine ⟨by decide, by decide, by decide, by decide⟩

lemma XElem.sizeOf_pos (el : XElem) : 0 < sizeOf el := by
  cases el with
  | mk n r t mi ma i => simp

lemma mem_elemsRefs (table : List (String × XCType)) :
    ∀ els (e : XElem), e ∈ els → ∀ t, t ∈ elemRefs table e → t ∈ elemsRefs table els := by
  intro els
  induction els with
  | nil =>
      intro e he
      simp at he
  | cons h tl ih =>
      intro e he t ht
      rw [elemsRefs]
      rcases List.mem_cons.mp he with rfl | he'
      · exact List.mem_append_left _ ht
      · exact List.mem_append_right _ (ih e he' t ht)

lemma namedCT2_some_refs (table : List (String × XCType))
    (n r ta mi ma : Option String) (i : Option XCType) (c : XCType)
    (h : namedCT2 table ta = some c) :
    ∃ t, tn2 ta = some t ∧ ctLookup table t = some c
      ∧ elemRefs table (XElem.mk n r ta mi ma i) = [t] := by
  unfold namedCT2 at h
  cases htn : tn2 ta with
  | none =>
      rw [htn] at h
      exact absurd h (by simp)
  | some t =>
      rw [htn] at h
      have h2 : ctLookup table t = some c := h
      have hre : elemRefs table (XElem.mk n r ta mi ma i) = [t] := by
        rw [elemRefs, htn]
        simp [h2]
      exact ⟨t, rfl, h2, hre⟩

lemma namedCT2_none_inline_refs (table : List (String × XCType))
    (n r ta mi ma : Option String) (kids : List XElem)
    (hn : namedCT2 table ta = none) :
    elemRefs table (XElem.mk n r ta mi ma (some (XCType.mk kids)))
      = elemsRefs table kids := by
  unfold namedCT2 at hn
  cases htn : tn2 ta with
  | none =>
      rw [elemRefs, htn]
      simp [ictRefs]
  | some t =>
      rw [htn] at hn
      have h2 : ctLookup table t = none := hn
      rw [elemRefs, htn]
      simp [h2, ictRefs]

lemma walkElems_isSome (fuel : ℕ) (nm : String) (table : List (String × XCType))
    (pre : String) :
    ∀ els, (∀ e ∈ els, (walkT fuel nm table e pre).isSome) →
      (walkElems fuel nm table els pre).isSome := by
  intro els
  induction els with
  | nil =>
      intro _
      simp [walkElems]
  | cons e es ih =>
      intro h
      obtain ⟨r, hr⟩ := Option.isSome_iff_exists.mp (h e (List.mem_cons_self e es))
      obtain ⟨rs, hrs⟩ :=
        Option.isSome_iff_exists.mp (ih (fun x hx => h x (List.mem_cons_of_mem _ hx)))
      rw [walkElems]
      simp [hr, hrs]

lemma refPath_transGen (table : List (String × XCType)) :
    ∀ l t x, IsRefPathFrom table t l → x ∈ l → Relation.TransGen (refEdge table) t x := by
  intro l
  induction l with
  | nil =>
      intro t x _ hx
      simp at hx
  | cons y ys ih =>
      intro t x hp hx
      rw [IsRefPathFrom] at hp
      obtain ⟨he, hp'⟩ := hp
      rcases List.mem_cons.mp hx with rfl | hx'
      · exact Relation.TransGen.single he
      · exact Relation.TransGen.head he (ih y x hp' hx')

lemma refPath_nodup (table : List (String × XCType)) (hNC : NoCycle table) :
    ∀ l t, IsRefPathFrom table t l → (t :: l).Nodup := by
  intro l
  induction l with
  | nil =>
      intro t _
      simp
  | cons y ys ih =>
      intro t hp
      rw [IsRefPathFrom] at hp
      obtain ⟨he, hp'⟩ := hp
      rw [List.nodup_cons]
      refine ⟨?_, ih y hp'⟩
      intro ht
      rcases List.mem_cons.mp ht with rfl | ht'
      · exact hNC t (Relation.TransGen.single he)
      · exact hNC t (Relation.TransGen.head he (refPath_transGen table ys y t hp' ht'))

lemma sizeOf_els_pos (els : List XElem) : 0 < sizeOf els := by
  cases els <;> simp

lemma elemsRefs_lookup (table : List (String × XCType)) :
    ∀ n els, sizeOf els ≤ n → ∀ x, x ∈ elemsRefs table els → (ctLookup table x).isSome := by
  intro n
  induction n with
  | zero =>
      intro els h
      exact absurd h (by have := sizeOf_els_pos els; omega)
  | succ m ih =>
      intro els hsz x hx
      cases els with
      | nil =>
          rw [elemsRefs] at hx
          simp at hx
      | cons e es =>
          rw [elemsRefs] at hx
          rcases List.mem_append.mp hx with hx1 | hx2
          · cases e with
            | mk n2 r2 ta2 mi2 ma2 i2 =>
                rw [elemRefs] at hx1
                have hkids : ∀ kids, i2 = some (XCType.mk kids) →
                    x ∈ elemsRefs table kids → (ctLookup table x).isSome := by
                  intro kids hi2 hxk
                  apply ih kids ?_ x hxk
                  subst hi2
                  simp only [List.cons.sizeOf_spec, XElem.mk.sizeOf_spec,
                    Option.some.sizeOf_spec, XCType.mk.sizeOf_spec] at hsz
                  omega
                have hict : x ∈ ictRefs table i2 → (ctLookup table x).isSome := by
                  intro hxi
                  cases i2 with
                  | none =>
                      rw [ictRefs] at hxi
                      simp at hxi
                  | some c =>
                      cases c with
                      | mk kids =>
                          rw [ictRefs] at hxi
                          exact hkids kids rfl hxi
                cases htn : tn2 ta2 with
                | none =>
                    rw [htn] at hx1
                    exact hict hx1
                | some t =>
                    rw [htn] at hx1
                    have hx1' : x ∈ (if (ctLookup table t).isSome then [t]
                        else ictRefs table i2) := hx1
                    by_cases hl : (ctLookup table t).isSome
                    · rw [if_pos hl] at hx1'
                      rcases List.mem_singleton.mp hx1' with rfl
                      exact hl
                    · rw [if_neg hl] at hx1'
                      exact hict hx1'
          · apply ih es ?_ x hx2
            have : sizeOf es < sizeOf (e :: es) := by simp
            omega

lemma refEdge_target_key (table : List (String × XCType)) (t x : String)
    (h : refEdge table t x) : (ctLookup table x).isSome := by
  obtain ⟨c, _, hm⟩ := h
  unfold ctRefs at hm
  exact elemsRefs_lookup table (sizeOf c.children) c.children le_rfl x hm

lemma lookup_isSome_mem_keys (table : List (String × XCType)) (x : String)
    (h : (ctLookup table x).isSome) : x ∈ table.map Prod.fst := by
  unfold ctLookup at h
  cases hf : table.reverse.find? (fun p => p.1 == x) with
  | none =>
      rw [hf] at h
      simp at h
  | some p =>
      have hp := List.mem_of_find?_eq_some hf
      have hpx := List.find?_some hf
      rw [List.mem_reverse] at hp
      have hx : p.1 = x := by simpa using hpx
      rw [← hx]
      exact List.mem_map_of_mem Prod.fst hp

lemma refPath_mem_keys (table : List (String × XCType)) :
    ∀ l t, IsRefPathFrom table t l → ∀ x ∈ l, x ∈ table.map Prod.fst := by
  intro l
  induction l with
  | nil =>
      intro t _ x hx
      simp at hx
  | cons y ys ih =>
      intro t hp x hx
      rw [IsRefPathFrom] at hp
      obtain ⟨he, hp'⟩ := hp
      rcases List.mem_cons.mp hx with rfl | hx'
      · exact lookup_isSome_mem_keys table x (refEdge_target_key table t x he)
      · exact ih y hp' x hx'

lemma reachBound_of_noCycle (table : List (String × XCType)) (hNC : NoCycle table)
    (t : String) : reachBound table t (table.length + 1) := by
  intro l hp
  by_contra hlen
  push_neg at hlen
  have hnd : l.Nodup := (refPath_nodup table hNC l t hp).of_cons
  have hsub : l ⊆ table.map Prod.fst := fun x hx => refPath_mem_keys table l t hp x hx
  have hle := (List.subperm_of_subset hnd hsub).length_le
  rw [List.length_map] at hle
  omega

lemma walkT_isSome (nm : String) (table : List (String × XCType)) :
    ∀ fuel bound el, sizeOf el ≤ bound →
      (∀ t ∈ elemRefs table el, reachBound table t fuel) →
      ∀ pre, (walkT fuel nm table el pre).isSome := by
  intro fuel
  induction fuel using Nat.strong_induction_on with
  | _ fuel ihF =>
    intro bound
    induction bound with
    | zero =>
        intro el hsz
        exact absurd hsz (by have := XElem.sizeOf_pos el; omega)
    | succ b ihB =>
        intro el hsz hrefs pre
        cases el with
        | mk n r ta mi ma ict =>
            rw [walkT.eq_def]
            cases hn : namedCT2 table ta with
            | some c =>
                cases c with
                | mk kids =>
                    obtain ⟨t, htn, hlk, hrf⟩ :=
                      namedCT2_some_refs table n r ta mi ma ict (XCType.mk kids) hn
                    have hrb : reachBound table t fuel := by
                      apply hrefs
                      rw [hrf]
                      simp
                    have hfuel : 0 < fuel := by
                      have h0 := hrb [] (by rw [IsRefPathFrom]; trivial)
                      simpa using h0
                    obtain ⟨f, rfl⟩ := Nat.exists_eq_succ_of_ne_zero hfuel.ne'
                    simp only [hn]
                    cases kids with
                    | nil => simp [walkNamed]
                    | cons k ks =>
                        rw [walkNamed]
                        apply walkElems_isSome
                        intro e he
                        apply ihF f (Nat.lt_succ_self f) (sizeOf e) e le_rfl
                        intro t2 ht2
                        have hedge : refEdge table t t2 := by
                          refine ⟨XCType.mk (k :: ks), hlk, ?_⟩
                          unfold ctRefs
                          exact mem_elemsRefs table (k :: ks) e he t2 ht2
                        intro l hl
                        have hb := hrb (t2 :: l) (by rw [IsRefPathFrom]; exact ⟨hedge, hl⟩)
                        simp at hb
                        omega
            | none =>
                simp only [hn]
                cases ict with
                | none => simp [walkIct]
                | some c =>
                    cases c with
                    | mk kids =>
                        cases kids with
                        | nil => simp [walkIct]
                        | cons k ks =>
                            rw [walkIct]
                            apply walkElems_isSome
                            intro e he
                            have h1 := List.sizeOf_lt_of_mem he
                            have hse : sizeOf e ≤ b := by
                              simp only [List.cons.sizeOf_spec, XElem.mk.sizeOf_spec,
                                Option.some.sizeOf_spec, XCType.mk.sizeOf_spec] at hsz h1
                              omega
                            apply ihB e hse ?_ (mkPath pre (elName2 n r))
                            intro t2 ht2
                            apply hrefs
                            rw [namedCT2_none_inline_refs table n r ta mi ma (k :: ks) hn]
                            exact mem_elemsRefs table (k :: ks) e he t2 ht2

/-- Claim C8: for every XSD whose named complex-type references contain no
cycle (direct or transitive), the flattening walk terminates: some finite
fuel (`|table| + 1` table jumps suffice, since an acyclic reference chain
never revisits a type) makes the fuel-totalised walk return a finite row
list for every root. -/
theorem C8_theorem (nm : String) (cts : List (Option String × XCType))
    (roots : List XElem) (hNC : NoCycle (mkCTTable cts)) :
    ∃ fuel, (flattenXsd fuel nm cts roots).isSome := by
  refine ⟨(mkCTTable cts).length + 1, ?_⟩
  have h := walkElems_isSome ((mkCTTable cts).length + 1) nm (mkCTTable cts) "" roots
    (fun e _ => walkT_isSome nm (mkCTTable cts) ((mkCTTable cts).length + 1)
      (sizeOf e) e le_rfl
      (fun t _ => reachBound_of_noCycle (mkCTTable cts) hNC t) "")
  obtain ⟨v, hv⟩ := Option.isSome_iff_exists.mp h
  simp [flattenXsd, hv]

lemma noCycle_nil : NoCycle ([] : List (String × XCType)) := by
  have noEdge : ∀ a b, ¬ refEdge [] a b := by
    rintro a b ⟨c, hc, _⟩
    simp [ctLookup] at hc
  have noTG : ∀ a b, ¬ Relation.TransGen (refEdge []) a b := by
    intro a b h
    induction h with
    | single he => exact noEdge _ _ he
    | tail _ he => exact noEdge _ _ he
  intro t
  exact noTG t t

/-- Claim C8 witness: a concrete schema with an empty type table (trivially
acyclic) and one anonymous leaf root flattens with some finite fuel. -/
theorem C8_witness :
    ∃ fuel, (flattenXsd fuel "s" [] [XElem.mk none none none none none none]).isSome :=
  C8_theorem "s" [] [XElem.mk none none none none none none] noCycle_nil

/-- Claim C10: an element declaration with neither a `name` nor a `ref`
attribute does not make the flattening fail: its name is the literal
`"(anon)"`, the walk of such an element is identical to the walk of the same
element explicitly named `"(anon)"` (so its path is the parent path followed
by `/(anon)`, or `(anon)` at a root, and traversal continues normally), and a
fully attribute-less leaf yields exactly the `(anon)` row with defaulted
occurrence bounds. -/
theorem C10_theorem (fuel : ℕ) (nm : String) (table : List (String × XCType))
    (ta mi ma : Option String) (ict : Option XCType) (pre : String) :
    elName (.mk none none ta mi ma ict) = "(anon)"
    ∧ walkT fuel nm table (.mk none none ta mi ma ict) pre
        = walkT fuel nm table (.mk (some "(anon)") none ta mi ma ict) pre
    ∧ walkT fuel nm table (.mk none none none mi ma none) pre
        = some [⟨nm, mkPath pre "(anon)", "(anon)", "simpleType", mi.getD "1", ma.getD "1"⟩] := by
  refine ⟨rfl, ?_, ?_⟩
  · rw [walkT, walkT]
    have he : elName2 (some "(anon)") none = elName2 none none := rfl
    rw [he]
  · rw [walkT]
    show walkIct fuel nm table none (mkPath pre (elName2 none none))
      (elName2 none none) (tn2 none) mi ma = _
    rw [walkIct]
    rfl
